import Mathlib

/-!
# Verification of the FIG-Loneliness preprocessing pipeline

Shallow embedding of `src/preprocessing.py`:

* `basic_text_normalisation` (lines 42-77): lowercase, strip, replace the
  regex `http\S+|www\S+` by `<URL>`, collapse whitespace runs (`\s+`) to a
  single space;
* `apply_preprocessing` (lines 80-117): per-record map adding `text_clean`
  and `label := lonely[1]`, then removal of the `idx`/`unique_id` columns;
* `validate_dataset` (lines 120-162): per-split report of the empty
  cleaned-text count, the label distribution, and truncated sample pairs;
* `load_fig_loneliness` (lines 16-39): composition of three loads from
  fixed sub-locations, with the `dev_set` location renamed to `validation`.

Python strings are embedded as `List Char`; rows of a dataset split are
association lists from column name to a dynamic value (`Val`), mirroring the
dict-shaped examples that `datasets.map` feeds to the mapping function.
Python exceptions (KeyError / IndexError / TypeError / AttributeError) are
embedded with `Except PyError`.  Whitespace is modelled by the ASCII
whitespace characters (the set is used uniformly for `str.strip`, `\s` and
`\S`, matching Python's behaviour on ASCII text).
-/

set_option linter.unusedVariables false

/-- The ASCII whitespace characters: the model of Python's whitespace
(used by `str.strip()` and the regex classes `\s` / `\S`). -/
def isPySpace (c : Char) : Bool :=
  c == ' ' || c == '\t' || c == '\n' || c == '\r' || c == '\x0b' || c == '\x0c'

/-- Complement of `isPySpace`: the regex class `\S`. -/
def nonspace (c : Char) : Bool :=
  !isPySpace c

/-- ASCII case folding of one character — the model of `str.lower()`
(the texts relevant here are ASCII). -/
def lowerChar (c : Char) : Char :=
  match c with
  | 'A' => 'a' | 'B' => 'b' | 'C' => 'c' | 'D' => 'd' | 'E' => 'e'
  | 'F' => 'f' | 'G' => 'g' | 'H' => 'h' | 'I' => 'i' | 'J' => 'j'
  | 'K' => 'k' | 'L' => 'l' | 'M' => 'm' | 'N' => 'n' | 'O' => 'o'
  | 'P' => 'p' | 'Q' => 'q' | 'R' => 'r' | 'S' => 's' | 'T' => 't'
  | 'U' => 'u' | 'V' => 'v' | 'W' => 'w' | 'X' => 'x' | 'Y' => 'y'
  | 'Z' => 'z'
  | c => c

/-- `text.lower()` on the character-list embedding of a string. -/
def lowerStr (s : List Char) : List Char :=
  s.map lowerChar

/-- `text.strip()`: drop leading and trailing whitespace. -/
def strip (s : List Char) : List Char :=
  ((s.dropWhile isPySpace).reverse.dropWhile isPySpace).reverse

/-- One left-to-right pass of `re.sub(r"\s+", " ", text)`.  The flag says
whether the scanner is inside a whitespace run whose single replacement
space has already been emitted. -/
def collapseGo : Bool → List Char → List Char
  | _, [] => []
  | true, c :: cs =>
    if isPySpace c then collapseGo true cs else c :: collapseGo false cs
  | false, c :: cs =>
    if isPySpace c then ' ' :: collapseGo true cs else c :: collapseGo false cs

/-- `re.sub(r"\s+", " ", text)`: every maximal whitespace run becomes one
single space. -/
def collapse (s : List Char) : List Char :=
  collapseGo false s

/-- The maximal run of non-whitespace characters at the head of the string:
what `\S*` would match here, and the whole match of `http\S+` / `www\S+`
when one starts here (the literal prefix is itself non-whitespace and `\S+`
is greedy with nothing after it). -/
def tokenAt (s : List Char) : List Char :=
  s.takeWhile nonspace

/-- The regex alternative `http\S+` matches at the head of `s`: the string
starts with `http` followed by at least one non-whitespace character —
equivalently the maximal non-whitespace run at the head starts with `http`
and has length at least 5. -/
def startsHttp (s : List Char) : Bool :=
  ((tokenAt s).take 4 == ['h', 't', 't', 'p']) && 5 ≤ (tokenAt s).length

/-- The regex alternative `www\S+` matches at the head of `s`. -/
def startsWww (s : List Char) : Bool :=
  ((tokenAt s).take 3 == ['w', 'w', 'w']) && 4 ≤ (tokenAt s).length

/-- The pattern `http\S+|www\S+` matches at the head of `s`. -/
def startsUrl (s : List Char) : Bool :=
  startsHttp s || startsWww s

/-- Left-to-right scan of `re.sub(r"http\S+|www\S+", "<URL>", text)`.
When the flag is `true` the scanner is skipping the non-whitespace
remainder of a match that has already been replaced (`re.sub` resumes
scanning after the end of the match). -/
def urlSubGo : Bool → List Char → List Char
  | _, [] => []
  | true, c :: cs =>
    if isPySpace c then c :: urlSubGo false cs else urlSubGo true cs
  | false, c :: cs =>
    if startsUrl (c :: cs) then
      '<' :: 'U' :: 'R' :: 'L' :: '>' :: urlSubGo true cs
    else c :: urlSubGo false cs

/-- `re.sub(r"http\S+|www\S+", "<URL>", text)`: replace every
leftmost-first, non-overlapping match by the placeholder `<URL>`.  Each
match consumes the whole non-whitespace run from the match position. -/
def urlSub (s : List Char) : List Char :=
  urlSubGo false s

/-- The string path of `basic_text_normalisation`
(`preprocessing.py` lines 68-77): lowercase, strip, URL substitution,
whitespace collapse — in that order. -/
def bnStr (s : List Char) : List Char :=
  collapse (urlSub (strip (lowerStr s)))

/-- Scalar Python values occurring in the dataset rows. -/
inductive SVal where
  | sstr (s : List Char)
  | sint (n : Int)
  | snull
deriving DecidableEq, Repr

/-- Dynamic Python values in a row: a scalar or a (flat) list of scalars,
which is the shape of the `lonely` annotation vector. -/
inductive Val where
  | scalar (v : SVal)
  | vlist (l : List SVal)
deriving DecidableEq, Repr

/-- `basic_text_normalisation` (lines 42-77).  A non-string argument fails
the `isinstance(text, str)` guard and yields the empty string. -/
def basic_text_normalisation : Val → List Char
  | .scalar (.sstr s) => bnStr s
  | _ => []

/-- The character content a value contributes to normalisation: the string
itself for a string, nothing for any non-string (which normalises to `""`). -/
def textOf : Val → List Char
  | .scalar (.sstr s) => s
  | _ => []

/-- Abbreviation for string literals as character lists. -/
def toL (s : String) : List Char :=
  s.toList

/-- A dataset row: an insertion-ordered association list from column name
to value, the shape of the dict that `datasets.map` passes to `process`. -/
abbrev Row : Type :=
  List (String × Val)

/-- A dataset split: an ordered list of rows. -/
abbrev Split : Type :=
  List Row

/-- A `DatasetDict`: an ordered association of split name to split. -/
abbrev Dataset : Type :=
  List (String × Split)

/-- The Python exceptions that the pipeline can raise on malformed data:
`KeyError` (missing dict key or column), `IndexError` (sequence index out
of range), `TypeError` (operation unsupported by the value's type) and
`AttributeError` (missing method).  These are the concrete forms of the
spec's `SchemaError`. -/
inductive PyError where
  | keyError (k : String)
  | indexError
  | typeError
  | attributeError
deriving DecidableEq, Repr

deriving instance DecidableEq for Except

/-- Dict lookup `row[k]` as an `Option` (callers turn `none` into
`KeyError`). -/
def getField (r : Row) (k : String) : Option Val :=
  List.lookup k r

/-- Dict assignment `row[k] = v`: replace the value in place if the key
exists (Python dicts keep insertion order), otherwise append the new key. -/
def setField : Row → String → Val → Row
  | [], k, v => [(k, v)]
  | (k', v') :: r, k, v =>
    if k' == k then (k, v) :: r else (k', v') :: setField r k v

/-- The effect of `remove_columns(["idx", "unique_id"])` on one row. -/
def removeCols (r : Row) : Row :=
  r.filter (fun p => !(p.1 == "idx" || p.1 == "unique_id"))

/-- Python subscripting `v[1]`: lists and strings are indexable
(`IndexError` when shorter than two elements), other values raise
`TypeError`. -/
def pyIndex1 : Val → Except PyError Val
  | .vlist l =>
    match l.get? 1 with
    | some v => .ok (.scalar v)
    | none => .error .indexError
  | .scalar (.sstr s) =>
    match s.get? 1 with
    | some c => .ok (.scalar (.sstr [c]))
    | none => .error .indexError
  | _ => .error .typeError

/-- The record-level mapping function `process` of `apply_preprocessing`
(lines 101-109): add `text_clean = basic_text_normalisation(example["text"])`,
then `label = example["lonely"][1]`, in evaluation order. -/
def process (r : Row) : Except PyError Row :=
  match getField r "text" with
  | none => .error (.keyError "text")
  | some tv =>
    match getField (setField r "text_clean" (.scalar (.sstr (basic_text_normalisation tv)))) "lonely" with
    | none => .error (.keyError "lonely")
    | some lv =>
      match pyIndex1 lv with
      | .error e => .error e
      | .ok b =>
        .ok (setField (setField r "text_clean" (.scalar (.sstr (basic_text_normalisation tv)))) "label" b)

/-- Exception-propagating map over a list, in order: the embedding of a
Python loop that applies `f` to every element and aborts at the first
raised exception. -/
def mapE (f : α → Except PyError β) : List α → Except PyError (List β)
  | [] => .ok []
  | x :: xs =>
    match f x with
    | .error e => .error e
    | .ok y =>
      match mapE f xs with
      | .error e => .error e
      | .ok ys => .ok (y :: ys)

/-- The action of `dataset.map(process)` on one named split. -/
def processSplit (p : String × Split) : Except PyError (String × Split) :=
  match mapE process p.2 with
  | .error e => .error e
  | .ok rows => .ok (p.1, rows)

/-- `apply_preprocessing` (lines 80-117): `dataset.map(process)` over every
split in order — any exception aborts the whole call with nothing
returned — followed by `remove_columns(["idx", "unique_id"])`. -/
def apply_preprocessing (d : Dataset) : Except PyError Dataset :=
  match mapE processSplit d with
  | .error e => .error e
  | .ok mapped => .ok (mapped.map (fun p => (p.1, p.2.map removeCols)))

/-- One term of the generator `1 for x in data if not x["text_clean"].strip()`
(line 144-146): `True` when the stripped cleaned text is empty.  A missing
key raises `KeyError`; `.strip()` on a non-string raises `AttributeError`. -/
def emptyFlag (r : Row) : Except PyError Bool :=
  match getField r "text_clean" with
  | none => .error (.keyError "text_clean")
  | some (.scalar (.sstr s)) => .ok (decide (strip s = []))
  | some _ => .error .attributeError

/-- Column extraction `data["label"]` restricted to one row. -/
def getLabel (r : Row) : Except PyError Val :=
  match getField r "label" with
  | none => .error (.keyError "label")
  | some v => .ok v

/-- A value is usable as a member of a Python `set` (line 153): scalars
are hashable, lists are not (`TypeError: unhashable type`). -/
def pyHashable : Val → Bool
  | .scalar _ => true
  | .vlist _ => false

/-- Python slicing `v[:200]` (lines 161-162): strings and lists are
sliceable, any other value raises `TypeError`. -/
def pySlice (v : Val) : Except PyError Val :=
  match v with
  | .scalar (.sstr s) => .ok (.scalar (.sstr (s.take 200)))
  | .vlist l => .ok (.vlist (l.take 200))
  | _ => .error .typeError

/-- The `Original`/`Cleaned` pair printed for one sample row
(lines 161-162): `data[i]["text"][:200]` and `data[i]["text_clean"][:200]`. -/
def samplePair (r : Row) : Except PyError (Val × Val) :=
  match getField r "text" with
  | none => .error (.keyError "text")
  | some tv =>
    match pySlice tv with
    | .error e => .error e
    | .ok ts =>
      match getField r "text_clean" with
      | none => .error (.keyError "text_clean")
      | some cv =>
        match pySlice cv with
        | .error e => .error e
        | .ok cs => .ok (ts, cs)

/-- What `validate_dataset` computes and prints for one split: the empty
cleaned-text count, the label distribution, and the truncated sample
pairs. -/
structure SplitReport where
  emptyCount : Nat
  labelDist : List (Val × Nat)
  samples : List (Val × Val)
deriving DecidableEq, Repr

/-- The body of the per-split loop of `validate_dataset` (lines 136-162),
in evaluation order: empty-count over all rows, then the label column and
its distribution (`set(labels)` requires hashable labels), then the first
`min(n, len(data))` sample pairs. -/
def validateSplit (n : Nat) (rows : Split) : Except PyError SplitReport :=
  match mapE emptyFlag rows with
  | .error e => .error e
  | .ok flags =>
    match mapE getLabel rows with
    | .error e => .error e
    | .ok labels =>
      if labels.all pyHashable then
        match mapE samplePair (rows.take n) with
        | .error e => .error e
        | .ok samples =>
          .ok ⟨(flags.filter id).length,
               labels.dedup.map (fun v => (v, labels.count v)),
               samples⟩
      else .error .typeError

/-- The validator's loop body for one named split. -/
def validateEntry (n : Nat) (p : String × Split) : Except PyError (String × SplitReport) :=
  match validateSplit n p.2 with
  | .error e => .error e
  | .ok rep => .ok (p.1, rep)

/-- `validate_dataset` (lines 120-162): the per-split reports in dataset
key order; any exception raised on a split aborts the whole call. -/
def validate_dataset (d : Dataset) (n : Nat) : Except PyError (List (String × SplitReport)) :=
  mapE (validateEntry n) d

/-- The spec's `LoadError`: a sub-location is missing, unreadable, or has a
schema incompatible with the expected record shape. -/
inductive LoadError where
  | loadFailure (path : String)
deriving DecidableEq, Repr

/-- `os.path.join(root, name)` for the shapes used here. -/
def pyJoin (root name : String) : String :=
  if root.endsWith "/" then root ++ name else root ++ "/" ++ name

/-- Modelled from the spec: `load_from_disk` is the external `datasets`
library (out of scope per the spec, which treats the storage backend as an
external collaborator).  It is embedded as an abstract storage map from
path to either a loaded split or a `LoadError` covering the missing /
unreadable / schema-incompatible cases. -/
def load_from_disk (storage : String → Except LoadError Split) (path : String) : Except LoadError Split :=
  storage path

/-- `load_fig_loneliness` (lines 16-39): load the three fixed
sub-locations in order and compose them under the canonical keys, with
`dev_set` renamed to `validation`. -/
def load_fig_loneliness (storage : String → Except LoadError Split) (root : String) : Except LoadError Dataset :=
  match load_from_disk storage (pyJoin root "train_set") with
  | .error e => .error e
  | .ok train =>
    match load_from_disk storage (pyJoin root "dev_set") with
    | .error e => .error e
    | .ok dev =>
      match load_from_disk storage (pyJoin root "test_set") with
      | .error e => .error e
      | .ok test => .ok [("train", train), ("validation", dev), ("test", test)]

/-! ## Predicates used to state the verified properties -/

/-- The first character, when there is one, is not whitespace. -/
def headOk : List Char → Bool
  | [] => true
  | c :: _ => nonspace c

/-- The last character, when there is one, is not whitespace. -/
def lastOk (l : List Char) : Bool :=
  match l.getLast? with
  | none => true
  | some c => nonspace c

/-- No two adjacent characters are both whitespace. -/
def noDouble : List Char → Bool
  | [] => true
  | [_] => true
  | a :: b :: t => !(isPySpace a && isPySpace b) && noDouble (b :: t)

/-- `re.sub(r"http\S+|www\S+", ...)` finds no match anywhere in `l`. -/
def noMatch : List Char → Bool
  | [] => true
  | c :: cs => !startsUrl (c :: cs) && noMatch cs

/-- A whitespace-delimited token on which the pattern `http\S+|www\S+`
matches from its first character: entirely non-whitespace and starting
with `http` (plus at least one more character) or `www` (likewise). -/
def isUrlToken (t : List Char) : Bool :=
  t.all nonspace && startsUrl t

/-- A record that the spec's `SchemaError` contract is about: the `text`
field is absent, or the `lonely` field is absent, or the `lonely` value is
not indexable to two elements. -/
def badRecord (r : Row) : Bool :=
  (getField r "text").isNone ||
  (match getField r "lonely" with
   | none => true
   | some v =>
     match pyIndex1 v with
     | .error _ => true
     | .ok _ => false)

/-- The row's `text` field is present and holds a string. -/
def isStrTextRow (r : Row) : Bool :=
  match getField r "text" with
  | some (.scalar (.sstr _)) => true
  | _ => false

/-- `pat` occurs as a contiguous substring. -/
def containsSub (pat : List Char) : List Char → Bool
  | [] => pat.isEmpty
  | c :: cs => pat.isPrefixOf (c :: cs) || containsSub pat cs

/-! ## Character-level lemmas -/

theorem lowerChar_shape (c : Char) :
    lowerChar c ∈ ['a', 'b', 'c', 'd', 'e', 'f', 'g', 'h', 'i', 'j', 'k', 'l', 'm',
      'n', 'o', 'p', 'q', 'r', 's', 't', 'u', 'v', 'w', 'x', 'y', 'z'] ∨
    lowerChar c = c := by
  unfold lowerChar
  split <;> first
  | (left; decide)
  | (right; rfl)

theorem lowerChar_fix_lower (c : Char)
    (h : c ∈ ['a', 'b', 'c', 'd', 'e', 'f', 'g', 'h', 'i', 'j', 'k', 'l', 'm',
      'n', 'o', 'p', 'q', 'r', 's', 't', 'u', 'v', 'w', 'x', 'y', 'z']) :
    lowerChar c = c := by
  fin_cases h <;> rfl

theorem lowerChar_idem (c : Char) : lowerChar (lowerChar c) = lowerChar c := by
  rcases lowerChar_shape c with h | h
  · exact lowerChar_fix_lower _ h
  · rw [h]; exact h

theorem lowerChar_space : lowerChar ' ' = ' ' := rfl

/-- A string that is already the output of `lowerStr` is fixed by
`lowerStr`. -/
theorem lowerStr_eq_self {l : List Char} (h : ∀ c ∈ l, lowerChar c = c) :
    lowerStr l = l := by
  induction l with
  | nil => rfl
  | cons c cs ih =>
    simp only [lowerStr, List.map_cons]
    rw [h c (by simp)]
    have := ih (fun d hd => h d (by simp [hd]))
    simpa [lowerStr] using this

theorem mem_lowerStr {c : Char} {s : List Char} (h : c ∈ lowerStr s) :
    lowerChar c = c := by
  simp only [lowerStr, List.mem_map] at h
  obtain ⟨d, _, rfl⟩ := h
  exact lowerChar_idem d

/-! ## Head / last whitespace predicates, and `strip` -/

theorem headOk_dropWhile (l : List Char) : headOk (l.dropWhile isPySpace) = true := by
  induction l with
  | nil => rfl
  | cons c cs ih =>
    rw [List.dropWhile_cons]
    by_cases h : isPySpace c = true
    · simpa [h] using ih
    · simp [h, headOk, nonspace]

theorem getLast?_of_suffix {l' l : List Char} (h : l' <:+ l) (hne : l' ≠ []) :
    l'.getLast? = l.getLast? := by
  obtain ⟨u, rfl⟩ := h
  rw [List.getLast?_append]
  cases hl : l'.getLast? with
  | none => exact absurd (List.getLast?_eq_none_iff.mp hl) hne
  | some c => simp [Option.or]

theorem lastOk_dropWhile (l : List Char) (h : lastOk l = true) :
    lastOk (l.dropWhile isPySpace) = true := by
  by_cases hne : l.dropWhile isPySpace = []
  · simp [hne, lastOk]
  · unfold lastOk
    rw [getLast?_of_suffix (List.dropWhile_suffix _) hne]
    exact h

theorem headOk_reverse (l : List Char) :
    headOk l.reverse = lastOk l := by
  unfold lastOk
  cases hl : l.reverse with
  | nil =>
    have : l = [] := by simpa using congrArg List.reverse hl
    simp [this, headOk]
  | cons c cs =>
    have h1 : l.reverse.head? = some c := by rw [hl]; rfl
    rw [List.head?_reverse] at h1
    simp [headOk, h1]

theorem lastOk_reverse (l : List Char) :
    lastOk l.reverse = headOk l := by
  have := headOk_reverse l.reverse
  rw [List.reverse_reverse] at this
  exact this.symm

theorem headOk_strip (s : List Char) : headOk (strip s) = true := by
  unfold strip
  set X := s.dropWhile isPySpace with hX
  by_cases hne : X.reverse.dropWhile isPySpace = []
  · simp [hne, headOk]
  · have h1 : (X.reverse.dropWhile isPySpace).getLast? = X.reverse.getLast? :=
      getLast?_of_suffix (List.dropWhile_suffix _) hne
    have h2 : headOk (X.reverse.dropWhile isPySpace).reverse =
        lastOk (X.reverse.dropWhile isPySpace) := headOk_reverse _
    rw [h2]
    unfold lastOk
    rw [h1]
    have h3 : lastOk X.reverse = headOk X := lastOk_reverse X
    have h4 : headOk X = true := headOk_dropWhile s
    unfold lastOk at h3
    rw [h3.symm] at h4
    exact h4

theorem lastOk_strip (s : List Char) : lastOk (strip s) = true := by
  unfold strip
  rw [lastOk_reverse]
  exact headOk_dropWhile _

theorem mem_strip {c : Char} {s : List Char} (h : c ∈ strip s) : c ∈ s := by
  unfold strip at h
  rw [List.mem_reverse] at h
  have h1 := (@List.dropWhile_sublist Char ((s.dropWhile isPySpace).reverse) isPySpace).mem h
  rw [List.mem_reverse] at h1
  exact (List.dropWhile_sublist isPySpace).mem h1

theorem dropWhile_eq_self_of_headOk {l : List Char} (h : headOk l = true) :
    l.dropWhile isPySpace = l := by
  cases l with
  | nil => rfl
  | cons c cs =>
    simp only [headOk, nonspace, Bool.not_eq_true'] at h
    simp [List.dropWhile_cons, h]

theorem strip_eq_self {l : List Char} (h1 : headOk l = true) (h2 : lastOk l = true) :
    strip l = l := by
  unfold strip
  rw [dropWhile_eq_self_of_headOk h1]
  rw [← headOk_reverse] at h2
  rw [dropWhile_eq_self_of_headOk h2, List.reverse_reverse]

/-! ## Whitespace-collapse lemmas -/

theorem collapseGo_false_cons (c : Char) (cs : List Char) :
    collapseGo false (c :: cs) =
      if isPySpace c then ' ' :: collapseGo true cs else c :: collapseGo false cs := rfl

theorem collapseGo_true_cons (c : Char) (cs : List Char) :
    collapseGo true (c :: cs) =
      if isPySpace c then collapseGo true cs else c :: collapseGo false cs := rfl

theorem getLast?_mem_of_eq {c : Char} {l : List Char} (h : l.getLast? = some c) :
    c ∈ l := by
  induction l with
  | nil => cases h
  | cons a t ih =>
    cases t with
    | nil =>
      simp [List.getLast?] at h
      simp [h]
    | cons b u =>
      rw [List.getLast?_cons_cons] at h
      simpa using Or.inr (ih h)

theorem noDouble_cons {a : Char} {l : List Char}
    (hl : noDouble l = true)
    (h : isPySpace a = false ∨ headOk l = true) :
    noDouble (a :: l) = true := by
  cases l with
  | nil => rfl
  | cons b t =>
    have hb : (isPySpace a && isPySpace b) = false := by
      rcases h with h | h
      · simp [h]
      · simp only [headOk, nonspace, Bool.not_eq_true'] at h
        simp [h]
    simp [noDouble, hb, hl]

theorem headOk_collapseGo_true (l : List Char) :
    headOk (collapseGo true l) = true := by
  induction l with
  | nil => rfl
  | cons c cs ih =>
    by_cases h : isPySpace c = true
    · simpa [collapseGo, h] using ih
    · simp [collapseGo, h, headOk, nonspace]

theorem noDouble_collapseGo (l : List Char) :
    ∀ b, noDouble (collapseGo b l) = true := by
  induction l with
  | nil => intro b; cases b <;> rfl
  | cons c cs ih =>
    intro b
    by_cases h : isPySpace c = true
    · cases b
      · simp only [collapseGo, h, if_pos]
        exact noDouble_cons (ih true) (Or.inr (headOk_collapseGo_true cs))
      · simpa [collapseGo, h] using ih true
    · cases b <;>
      · simp only [collapseGo, h, if_neg, Bool.false_eq_true, not_false_iff]
        exact noDouble_cons (ih false) (Or.inl (by simpa using h))

theorem noDouble_collapse (l : List Char) : noDouble (collapse l) = true :=
  noDouble_collapseGo l false

theorem headOk_collapse {l : List Char} (h : headOk l = true) :
    headOk (collapse l) = true := by
  cases l with
  | nil => rfl
  | cons c cs =>
    simp only [headOk, nonspace, Bool.not_eq_true'] at h
    simp [collapse, collapseGo, h, headOk, nonspace]

theorem collapseGo_false_nil_iff (l : List Char) :
    collapseGo false l = [] ↔ l = [] := by
  cases l with
  | nil => simp [collapseGo]
  | cons c cs =>
    constructor
    · intro h
      by_cases hc : isPySpace c = true <;> simp [collapseGo, hc] at h
    · intro h; cases h

theorem collapseGo_true_nil_iff (l : List Char) :
    collapseGo true l = [] ↔ l.all isPySpace = true := by
  induction l with
  | nil => simp [collapseGo]
  | cons c cs ih =>
    by_cases hc : isPySpace c = true
    · simp [collapseGo, hc, ih]
    · simp [collapseGo, hc]

theorem lastOk_cons_of_ne {a : Char} {l : List Char} (h : l ≠ []) :
    lastOk (a :: l) = lastOk l := by
  cases l with
  | nil => exact absurd rfl h
  | cons b t => simp [lastOk, List.getLast?_cons_cons]

theorem lastOk_all_space {l : List Char} (h : lastOk l = true) (hne : l ≠ []) :
    l.all isPySpace = false := by
  cases hl : l.getLast? with
  | none => exact absurd (List.getLast?_eq_none_iff.mp hl) hne
  | some c =>
    have hc : nonspace c = true := by
      unfold lastOk at h; rw [hl] at h; exact h
    have hmem : c ∈ l := getLast?_mem_of_eq hl
    by_contra hall
    rw [Bool.not_eq_false] at hall
    have := (List.all_eq_true.mp hall) c hmem
    simp [nonspace, this] at hc

theorem lastOk_collapseGo {l : List Char} (h : lastOk l = true) :
    ∀ b, lastOk (collapseGo b l) = true := by
  induction l with
  | nil => intro b; cases b <;> rfl
  | cons c cs ih =>
    intro b
    cases cs with
    | nil =>
      have hc : nonspace c = true := by unfold lastOk at h; simpa [List.getLast?] using h
      have hc' : isPySpace c = false := by simpa [nonspace] using hc
      cases b <;> simp [collapseGo, hc', lastOk, List.getLast?, hc]
    | cons d ds =>
      have hcs : lastOk (d :: ds) = true := by
        rwa [lastOk_cons_of_ne (by simp)] at h
      by_cases hc : isPySpace c = true
      · cases b
        · rw [collapseGo_false_cons, if_pos hc]
          have hne : collapseGo true (d :: ds) ≠ [] := by
            intro hnil
            rw [collapseGo_true_nil_iff] at hnil
            rw [lastOk_all_space hcs (by simp)] at hnil
            cases hnil
          rw [lastOk_cons_of_ne hne]
          exact ih hcs true
        · simpa [collapseGo, hc] using ih hcs true
      · have step : ∀ b', collapseGo b' (c :: d :: ds) = c :: collapseGo false (d :: ds) := by
          intro b'; cases b' <;> simp [collapseGo, hc]
        cases b <;>
        · rw [step]
          have hne : collapseGo false (d :: ds) ≠ [] := by
            intro hnil
            exact absurd ((collapseGo_false_nil_iff _).mp hnil) (by simp)
          rw [lastOk_cons_of_ne hne]
          exact ih hcs false

theorem lastOk_collapse {l : List Char} (h : lastOk l = true) :
    lastOk (collapse l) = true :=
  lastOk_collapseGo h false

theorem mem_collapseGo {c' : Char} {l : List Char} :
    ∀ b, c' ∈ collapseGo b l → c' = ' ' ∨ c' ∈ l := by
  induction l with
  | nil => intro b h; cases b <;> simp [collapseGo] at h
  | cons c cs ih =>
    intro b h
    by_cases hc : isPySpace c = true
    · cases b
      · simp only [collapseGo, hc, if_pos, List.mem_cons] at h
        rcases h with h | h
        · exact Or.inl h
        · rcases ih true h with h' | h'
          · exact Or.inl h'
          · exact Or.inr (by simp [h'])
      · simp only [collapseGo, hc, if_pos] at h
        rcases ih true h with h' | h'
        · exact Or.inl h'
        · exact Or.inr (by simp [h'])
    · cases b <;>
      · simp only [collapseGo, hc, if_neg, Bool.false_eq_true, not_false_iff,
          List.mem_cons] at h
        rcases h with h | h
        · exact Or.inr (by simp [h])
        · rcases ih false h with h' | h'
          · exact Or.inl h'
          · exact Or.inr (by simp [h'])

theorem tokenAt_collapseGo_false (l : List Char) :
    tokenAt (collapseGo false l) = tokenAt l := by
  induction l with
  | nil => rfl
  | cons c cs ih =>
    by_cases hc : isPySpace c = true
    · have h1 : nonspace ' ' = false := by decide
      have h2 : nonspace c = false := by simp [nonspace, hc]
      simp [collapseGo, hc, tokenAt, List.takeWhile_cons, h1, h2]
    · have h2 : nonspace c = true := by simp [nonspace, hc]
      simp only [collapseGo, hc, Bool.false_eq_true, if_neg, not_false_iff]
      simp [tokenAt, List.takeWhile_cons, h2] at ih ⊢
      exact ih

theorem tokenAt_collapse (l : List Char) : tokenAt (collapse l) = tokenAt l :=
  tokenAt_collapseGo_false l

/-! ## The `noMatch` predicate: no position of the string starts a URL match -/

/-- A URL match at the head of a string is a function of the maximal
non-whitespace run at its head only. -/
theorem startsUrl_congr {s s' : List Char} (h : tokenAt s = tokenAt s') :
    startsUrl s = startsUrl s' := by
  simp [startsUrl, startsHttp, startsWww, h]

theorem tokenAt_cons_ws {c : Char} (cs : List Char) (hc : isPySpace c = true) :
    tokenAt (c :: cs) = [] := by
  have : nonspace c = false := by simp [nonspace, hc]
  simp [tokenAt, List.takeWhile_cons, this]

theorem tokenAt_cons_ns {c : Char} (cs : List Char) (hc : nonspace c = true) :
    tokenAt (c :: cs) = c :: tokenAt cs := by
  simp [tokenAt, List.takeWhile_cons, hc]

theorem startsUrl_ws_head {c : Char} (cs : List Char) (hc : isPySpace c = true) :
    startsUrl (c :: cs) = false := by
  simp [startsUrl, startsHttp, startsWww, tokenAt_cons_ws cs hc]

theorem noMatch_cons_iff (c : Char) (cs : List Char) :
    noMatch (c :: cs) = true ↔ startsUrl (c :: cs) = false ∧ noMatch cs = true := by
  simp [noMatch]

theorem noMatch_dropWhile_ws {l : List Char} (h : noMatch l = true) :
    noMatch (l.dropWhile isPySpace) = true := by
  induction l with
  | nil => exact h
  | cons c cs ih =>
    rw [noMatch_cons_iff] at h
    rw [List.dropWhile_cons]
    by_cases hc : isPySpace c = true
    · simpa [hc] using ih h.2
    · simpa [hc] using noMatch_cons_iff c cs |>.mpr ⟨h.1, h.2⟩

theorem noMatch_collapseGo {l : List Char} (h : noMatch l = true) :
    ∀ b, noMatch (collapseGo b l) = true := by
  induction l with
  | nil => intro b; cases b <;> rfl
  | cons c cs ih =>
    rw [noMatch_cons_iff] at h
    intro b
    by_cases hc : isPySpace c = true
    · cases b
      · rw [collapseGo_false_cons, if_pos hc]
        rw [noMatch_cons_iff]
        exact ⟨startsUrl_ws_head _ (by decide), ih h.2 true⟩
      · rw [collapseGo_true_cons, if_pos hc]
        exact ih h.2 true
    · have hns : nonspace c = true := by simp [nonspace, hc]
      have step : ∀ b', collapseGo b' (c :: cs) = c :: collapseGo false cs := by
        intro b'
        cases b' <;> simp [collapseGo_false_cons, collapseGo_true_cons, hc]
      rw [step b, noMatch_cons_iff]
      have htok : tokenAt (c :: collapseGo false cs) = tokenAt (c :: cs) := by
        rw [tokenAt_cons_ns _ hns, tokenAt_cons_ns _ hns, tokenAt_collapseGo_false]
      constructor
      · rw [startsUrl_congr htok]
        exact h.1
      · exact ih h.2 false

theorem noMatch_collapse {l : List Char} (h : noMatch l = true) :
    noMatch (collapse l) = true :=
  noMatch_collapseGo h false

/-! ## Collapse is idempotent -/

theorem collapseGo_true_eq_false_of_headOk {l : List Char} (h : headOk l = true) :
    collapseGo true l = collapseGo false l := by
  cases l with
  | nil => rfl
  | cons c cs =>
    simp only [headOk, nonspace, Bool.not_eq_true'] at h
    rw [collapseGo_true_cons, collapseGo_false_cons, if_neg (by simp [h]), if_neg (by simp [h])]

theorem collapseGo_false_idem (l : List Char) :
    ∀ b, collapseGo false (collapseGo b l) = collapseGo b l := by
  induction l with
  | nil => intro b; cases b <;> rfl
  | cons c cs ih =>
    intro b
    by_cases hc : isPySpace c = true
    · cases b
      · rw [collapseGo_false_cons, if_pos hc]
        rw [collapseGo_false_cons, if_pos (by decide)]
        rw [collapseGo_true_eq_false_of_headOk (headOk_collapseGo_true cs)]
        rw [ih true]
      · rw [collapseGo_true_cons, if_pos hc]
        exact ih true
    · have step : ∀ b', collapseGo b' (c :: cs) = c :: collapseGo false cs := by
        intro b'
        cases b' <;> simp [collapseGo_false_cons, collapseGo_true_cons, hc]
      rw [step b, collapseGo_false_cons, if_neg (by simp [hc]), ih false]

theorem collapse_idem (l : List Char) : collapse (collapse l) = collapse l :=
  collapseGo_false_idem l false

/-! ## URL-substitution lemmas -/

theorem urlSubGo_false_cons (c : Char) (cs : List Char) :
    urlSubGo false (c :: cs) =
      if startsUrl (c :: cs) then '<' :: 'U' :: 'R' :: 'L' :: '>' :: urlSubGo true cs
      else c :: urlSubGo false cs := rfl

theorem urlSubGo_true_cons (c : Char) (cs : List Char) :
    urlSubGo true (c :: cs) =
      if isPySpace c then c :: urlSubGo false cs else urlSubGo true cs := rfl

theorem urlSub_id_of_noMatch {l : List Char} (h : noMatch l = true) :
    urlSub l = l := by
  induction l with
  | nil => rfl
  | cons c cs ih =>
    rw [noMatch_cons_iff] at h
    unfold urlSub at ih ⊢
    rw [urlSubGo_false_cons, if_neg (by simp [h.1]), ih h.2]

theorem headOk_urlSub {l : List Char} (h : headOk l = true) :
    headOk (urlSub l) = true := by
  cases l with
  | nil => rfl
  | cons c cs =>
    unfold urlSub
    rw [urlSubGo_false_cons]
    by_cases hm : startsUrl (c :: cs) = true
    · rw [if_pos hm]; rfl
    · rw [if_neg (by simp [hm])]; exact h

theorem urlSubGo_false_nil_iff (l : List Char) :
    urlSubGo false l = [] ↔ l = [] := by
  cases l with
  | nil => simp [urlSubGo]
  | cons c cs =>
    rw [urlSubGo_false_cons]
    by_cases hm : startsUrl (c :: cs) = true
    · simp [hm]
    · simp [hm]

theorem tokenAt_length_le (s : List Char) : (tokenAt s).length ≤ s.length :=
  List.Sublist.length_le (List.takeWhile_sublist nonspace)

theorem startsUrl_short {s : List Char} (h : s.length < 4) : startsUrl s = false := by
  have h1 := tokenAt_length_le s
  have h5 : ¬(5 ≤ (tokenAt s).length) := by omega
  have h4 : ¬(4 ≤ (tokenAt s).length) := by omega
  simp [startsUrl, startsHttp, startsWww, h5, h4]

theorem lastOk_urlSubGo {l : List Char} (h : lastOk l = true) :
    ∀ b, lastOk (urlSubGo b l) = true := by
  induction l with
  | nil => intro b; cases b <;> rfl
  | cons c cs ih =>
    intro b
    cases cs with
    | nil =>
      have hc : nonspace c = true := by unfold lastOk at h; simpa [List.getLast?] using h
      have hc' : isPySpace c = false := by simpa [nonspace] using hc
      have hsu : startsUrl [c] = false := startsUrl_short (by simp)
      cases b
      · rw [urlSubGo_false_cons, if_neg (by simp [hsu])]
        simpa [lastOk, List.getLast?] using hc
      · rw [urlSubGo_true_cons, if_neg (by simp [hc'])]
        rfl
    | cons d ds =>
      have hcs : lastOk (d :: ds) = true := by
        rwa [lastOk_cons_of_ne (by simp)] at h
      cases b
      · by_cases hm : startsUrl (c :: d :: ds) = true
        · rw [urlSubGo_false_cons, if_pos hm]
          by_cases hnil : urlSubGo true (d :: ds) = []
          · rw [hnil]; rfl
          · rw [lastOk_cons_of_ne (by simp), lastOk_cons_of_ne (by simp),
              lastOk_cons_of_ne (by simp), lastOk_cons_of_ne (by simp),
              lastOk_cons_of_ne hnil]
            exact ih hcs true
        · rw [urlSubGo_false_cons, if_neg (by simp [hm])]
          have hnil : urlSubGo false (d :: ds) ≠ [] := by
            intro hn
            exact absurd ((urlSubGo_false_nil_iff _).mp hn) (by simp)
          rw [lastOk_cons_of_ne hnil]
          exact ih hcs false
      · by_cases hc : isPySpace c = true
        · rw [urlSubGo_true_cons, if_pos hc]
          have hnil : urlSubGo false (d :: ds) ≠ [] := by
            intro hn
            exact absurd ((urlSubGo_false_nil_iff _).mp hn) (by simp)
          rw [lastOk_cons_of_ne hnil]
          exact ih hcs false
        · rw [urlSubGo_true_cons, if_neg (by simp [hc])]
          exact ih hcs true

theorem lastOk_urlSub {l : List Char} (h : lastOk l = true) :
    lastOk (urlSub l) = true :=
  lastOk_urlSubGo h false

/-! ## Splitting URL substitution at a whitespace character -/

theorem tokenAt_append_ws {sp : Char} (hsp : isPySpace sp = true) (ys : List Char) :
    ∀ xs : List Char, tokenAt (xs ++ sp :: ys) = tokenAt (xs ++ [sp]) := by
  intro xs
  induction xs with
  | nil => rw [List.nil_append, List.nil_append, tokenAt_cons_ws _ hsp, tokenAt_cons_ws _ hsp]
  | cons c xs' ih =>
    by_cases hc : nonspace c = true
    · rw [List.cons_append, List.cons_append, tokenAt_cons_ns _ hc, tokenAt_cons_ns _ hc, ih]
    · have hc' : isPySpace c = true := by
        simpa [nonspace] using hc
      rw [List.cons_append, List.cons_append, tokenAt_cons_ws _ hc', tokenAt_cons_ws _ hc']

theorem urlSubGo_split {sp : Char} (hsp : isPySpace sp = true) (ys : List Char) :
    ∀ xs : List Char,
      urlSubGo false (xs ++ sp :: ys) = urlSubGo false (xs ++ [sp]) ++ urlSubGo false ys ∧
      urlSubGo true (xs ++ sp :: ys) = urlSubGo true (xs ++ [sp]) ++ urlSubGo false ys := by
  intro xs
  induction xs with
  | nil =>
    constructor
    · rw [List.nil_append, List.nil_append]
      rw [urlSubGo_false_cons, if_neg (by simp [startsUrl_ws_head _ hsp])]
      rw [urlSubGo_false_cons, if_neg (by simp [startsUrl_ws_head _ hsp])]
      rfl
    · rw [List.nil_append, List.nil_append]
      rw [urlSubGo_true_cons, if_pos hsp, urlSubGo_true_cons, if_pos hsp]
      rfl
  | cons c xs' ih =>
    obtain ⟨ihf, iht⟩ := ih
    have hurl : startsUrl (c :: (xs' ++ sp :: ys)) = startsUrl (c :: (xs' ++ [sp])) :=
      startsUrl_congr (tokenAt_append_ws hsp ys (c :: xs'))
    constructor
    · rw [List.cons_append, List.cons_append]
      by_cases hm : startsUrl (c :: (xs' ++ sp :: ys)) = true
      · rw [urlSubGo_false_cons, if_pos hm,
          urlSubGo_false_cons, if_pos (hurl ▸ hm), iht]
        simp
      · rw [urlSubGo_false_cons, if_neg (by simp [hm]),
          urlSubGo_false_cons, if_neg (by simp [hurl ▸ hm]), ihf]
        simp
    · rw [List.cons_append, List.cons_append]
      by_cases hc : isPySpace c = true
      · rw [urlSubGo_true_cons, if_pos hc, urlSubGo_true_cons, if_pos hc, ihf]
        simp
      · rw [urlSubGo_true_cons, if_neg (by simp [hc]),
          urlSubGo_true_cons, if_neg (by simp [hc]), iht]

/-! ## Whole-token URL replacement -/

theorem takeWhile_all_append {t l : List Char} (ht : t.all nonspace = true) :
    (t ++ l).takeWhile nonspace = t ++ l.takeWhile nonspace := by
  induction t with
  | nil => rfl
  | cons c t' ih =>
    simp only [List.all_cons, Bool.and_eq_true] at ht
    rw [List.cons_append, List.takeWhile_cons, if_pos ht.1, ih ht.2, List.cons_append]

theorem dropWhile_all_append {t l : List Char} (ht : t.all nonspace = true) :
    (t ++ l).dropWhile nonspace = l.dropWhile nonspace := by
  induction t with
  | nil => rfl
  | cons c t' ih =>
    simp only [List.all_cons, Bool.and_eq_true] at ht
    rw [List.cons_append, List.dropWhile_cons, if_pos ht.1, ih ht.2]

/-- In skip mode the scanner drops the non-whitespace characters up to the
next whitespace and resumes normally there. -/
theorem urlSubGo_true_skip {t : List Char} (ht : t.all nonspace = true)
    {sp : Char} (hsp : isPySpace sp = true) (b : List Char) :
    urlSubGo true (t ++ sp :: b) = sp :: urlSubGo false b := by
  induction t with
  | nil => rw [List.nil_append, urlSubGo_true_cons, if_pos hsp]
  | cons d t'' ih =>
    simp only [List.all_cons, Bool.and_eq_true] at ht
    have hd : isPySpace d = false := by
      have := ht.1
      simpa [nonspace] using this
    rw [List.cons_append, urlSubGo_true_cons, if_neg (by simp [hd])]
    exact ih ht.2

/-- `urlSub` on a string beginning with a URL token followed by whitespace
replaces exactly that token by the placeholder. -/
theorem urlSub_token_head {t : List Char} (ht : isUrlToken t = true)
    {sp : Char} (hsp : isPySpace sp = true) (b : List Char) :
    urlSub (t ++ sp :: b) = toL "<URL>" ++ sp :: urlSub b := by
  unfold isUrlToken at ht
  rw [Bool.and_eq_true] at ht
  obtain ⟨hall, hurl⟩ := ht
  have htok : tokenAt (t ++ sp :: b) = t := by
    unfold tokenAt
    rw [takeWhile_all_append hall, List.takeWhile_cons,
      if_neg (by simp [nonspace, hsp]), List.append_nil]
  have htokt : tokenAt t = t := by
    have := @takeWhile_all_append t [] hall
    simpa [tokenAt] using this
  have hurl' : startsUrl (t ++ sp :: b) = true := by
    have hcongr : startsUrl (t ++ sp :: b) = startsUrl t :=
      startsUrl_congr (by rw [htok, htokt])
    rw [hcongr]
    exact hurl
  cases t with
  | nil => exact absurd hurl (by decide)
  | cons c t' =>
    rw [List.cons_append]
    unfold urlSub
    rw [urlSubGo_false_cons, if_pos (by rw [← List.cons_append]; exact hurl')]
    have hall' : t'.all nonspace = true := by
      simp only [List.all_cons, Bool.and_eq_true] at hall
      exact hall.2
    rw [urlSubGo_true_skip hall' hsp b]
    rfl

/-! ## Normaliser-level lemmas -/

theorem basic_text_normalisation_eq (v : Val) :
    basic_text_normalisation v = bnStr (textOf v) := by
  cases v with
  | scalar sv => cases sv <;> rfl
  | vlist l => rfl

theorem bnStr_headOk (s : List Char) : headOk (bnStr s) = true :=
  headOk_collapse (headOk_urlSub (headOk_strip (lowerStr s)))

theorem bnStr_lastOk (s : List Char) : lastOk (bnStr s) = true :=
  lastOk_collapse (lastOk_urlSub (lastOk_strip (lowerStr s)))

theorem bnStr_noDouble (s : List Char) : noDouble (bnStr s) = true :=
  noDouble_collapse _

/-- When the lowercased, stripped input contains no URL match, the string
normalisation pipeline is idempotent: the second pass finds nothing to
lowercase, strip, substitute, or collapse. -/
theorem bnStr_idem {s : List Char} (H : noMatch (strip (lowerStr s)) = true) :
    bnStr (bnStr s) = bnStr s := by
  have hbn : bnStr s = collapse (strip (lowerStr s)) := by
    unfold bnStr
    rw [urlSub_id_of_noMatch H]
  have hlow : lowerStr (collapse (strip (lowerStr s))) = collapse (strip (lowerStr s)) := by
    apply lowerStr_eq_self
    intro c hc
    rcases mem_collapseGo false hc with h' | h'
    · rw [h']; exact lowerChar_space
    · exact mem_lowerStr (mem_strip h')
  have hHead : headOk (collapse (strip (lowerStr s))) = true :=
    headOk_collapse (headOk_strip (lowerStr s))
  have hLast : lastOk (collapse (strip (lowerStr s))) = true :=
    lastOk_collapse (lastOk_strip (lowerStr s))
  have hstrip : strip (collapse (strip (lowerStr s))) = collapse (strip (lowerStr s)) :=
    strip_eq_self hHead hLast
  have hnm : noMatch (collapse (strip (lowerStr s))) = true := noMatch_collapse H
  calc bnStr (bnStr s)
      = collapse (urlSub (strip (lowerStr (collapse (strip (lowerStr s)))))) := by
        rw [hbn]; rfl
    _ = collapse (urlSub (collapse (strip (lowerStr s)))) := by rw [hlow, hstrip]
    _ = collapse (collapse (strip (lowerStr s))) := by rw [urlSub_id_of_noMatch hnm]
    _ = collapse (strip (lowerStr s)) := collapse_idem _
    _ = bnStr s := hbn.symm

/-! ## Row-access lemmas -/

theorem getField_setField_self (r : Row) (k : String) (v : Val) :
    getField (setField r k v) k = some v := by
  induction r with
  | nil => simp [setField, getField, List.lookup]
  | cons p r' ih =>
    obtain ⟨k', v'⟩ := p
    by_cases h : (k' == k) = true
    · simp only [setField, h, if_pos]
      simp [getField, List.lookup]
    · simp only [setField, h, Bool.false_eq_true, if_neg, not_false_iff]
      have h' : k' ≠ k := by simpa [beq_iff_eq] using h
      have h2 : (k == k') = false := beq_eq_false_iff_ne.mpr (fun hk => h' hk.symm)
      simpa [getField, List.lookup, h2] using ih

theorem getField_setField_ne (r : Row) {k k2 : String} (v : Val) (h : k2 ≠ k) :
    getField (setField r k v) k2 = getField r k2 := by
  have h2 : (k2 == k) = false := beq_eq_false_iff_ne.mpr h
  induction r with
  | nil => simp [setField, getField, List.lookup, h2]
  | cons p r' ih =>
    obtain ⟨k', v'⟩ := p
    by_cases hk : (k' == k) = true
    · have hkk : k' = k := beq_iff_eq.mp hk
      simp only [setField, hk, if_pos]
      have h3 : (k2 == k') = false := by rw [hkk]; exact h2
      simp [getField, List.lookup, h3, h2]
    · simp only [setField, hk, Bool.false_eq_true, if_neg, not_false_iff]
      by_cases h4 : (k2 == k') = true
      · simp [getField, List.lookup, h4]
      · simp only [Bool.not_eq_true] at h4
        simpa [getField, List.lookup, h4] using ih

theorem getField_removeCols_removed (r : Row) {k : String}
    (h : k = "idx" ∨ k = "unique_id") :
    getField (removeCols r) k = none := by
  induction r with
  | nil => rfl
  | cons p r' ih =>
    obtain ⟨k', v'⟩ := p
    unfold removeCols at ih ⊢
    rw [List.filter_cons]
    by_cases hk : (k' == "idx" || k' == "unique_id") = true
    · simp only [hk, Bool.not_true, Bool.false_eq_true, if_neg, not_false_iff]
      exact ih
    · simp only [hk, Bool.not_false, if_pos]
      have hne : (k == k') = false := by
        rw [beq_eq_false_iff_ne]
        intro hkk
        subst hkk
        rcases h with h | h <;> simp [h] at hk
      simpa [getField, List.lookup, hne] using ih

theorem getField_removeCols_kept (r : Row) {k : String}
    (h1 : k ≠ "idx") (h2 : k ≠ "unique_id") :
    getField (removeCols r) k = getField r k := by
  induction r with
  | nil => rfl
  | cons p r' ih =>
    obtain ⟨k', v'⟩ := p
    unfold removeCols at ih ⊢
    rw [List.filter_cons]
    by_cases hk : (k' == "idx" || k' == "unique_id") = true
    · have hne : (k == k') = false := by
        rw [beq_eq_false_iff_ne]
        intro hkk
        subst hkk
        rcases Bool.or_eq_true_iff.mp hk with h | h
        · exact h1 (beq_iff_eq.mp h)
        · exact h2 (beq_iff_eq.mp h)
      simp only [hk, Bool.not_true, Bool.false_eq_true, if_neg, not_false_iff]
      simpa [getField, List.lookup, hne] using ih
    · simp only [hk, Bool.not_false, if_pos]
      by_cases h4 : (k == k') = true
      · simp [getField, List.lookup, h4]
      · simp only [Bool.not_eq_true] at h4
        simpa [getField, List.lookup, h4] using ih

/-! ## Exception-propagating map lemmas -/

theorem mapE_ok_iff {α β : Type} {f : α → Except PyError β} {l : List α} {l' : List β} :
    mapE f l = .ok l' ↔ List.Forall₂ (fun a b => f a = .ok b) l l' := by
  induction l generalizing l' with
  | nil =>
    constructor
    · intro h
      cases h
      exact List.Forall₂.nil
    · intro h
      cases h
      rfl
  | cons x xs ih =>
    constructor
    · intro h
      unfold mapE at h
      cases hfx : f x with
      | error e => rw [hfx] at h; cases h
      | ok y =>
        rw [hfx] at h
        cases hm : mapE f xs with
        | error e => rw [hm] at h; cases h
        | ok ys =>
          rw [hm] at h
          cases h
          exact List.Forall₂.cons hfx (ih.mp hm)
    · intro h
      cases h with
      | cons hfx hrest =>
        unfold mapE
        rw [hfx, ih.mpr hrest]

theorem mapE_error_of_mem {α β : Type} {f : α → Except PyError β} {l : List α} {x : α}
    (hx : x ∈ l) (hex : ∃ e, f x = .error e) : ∃ e', mapE f l = .error e' := by
  induction l with
  | nil => cases hx
  | cons a as ih =>
    cases hfa : f a with
    | error e => exact ⟨e, by unfold mapE; rw [hfa]⟩
    | ok y =>
      rcases List.mem_cons.mp hx with rfl | hx'
      · obtain ⟨e, he⟩ := hex
        rw [hfa] at he
        cases he
      · obtain ⟨e', he'⟩ := ih hx'
        exact ⟨e', by unfold mapE; rw [hfa, he']⟩

theorem mapE_ok_of_all {α β : Type} {f : α → Except PyError β} {l : List α}
    (h : ∀ x ∈ l, ∃ y, f x = .ok y) : ∃ l', mapE f l = .ok l' := by
  induction l with
  | nil => exact ⟨[], rfl⟩
  | cons a as ih =>
    obtain ⟨y, hy⟩ := h a (by simp)
    obtain ⟨l', hl'⟩ := ih (fun x hx => h x (by simp [hx]))
    exact ⟨y :: l', by unfold mapE; rw [hy, hl']⟩

theorem forall₂_mem_right {α β : Type} {R : α → β → Prop} {l : List α} {l' : List β}
    (h : List.Forall₂ R l l') {y : β} (hy : y ∈ l') : ∃ x ∈ l, R x y := by
  induction h with
  | nil => cases hy
  | cons hR hrest ih =>
    rcases List.mem_cons.mp hy with rfl | hy'
    · exact ⟨_, by simp, hR⟩
    · obtain ⟨x, hx, hRx⟩ := ih hy'
      exact ⟨x, by simp [hx], hRx⟩

/-! ## Anatomy of the record transform -/

theorem process_ok_iff {r r' : Row} :
    process r = .ok r' ↔
      ∃ tv lv b, getField r "text" = some tv ∧ getField r "lonely" = some lv ∧
        pyIndex1 lv = .ok b ∧
        r' = setField (setField r "text_clean"
          (.scalar (.sstr (basic_text_normalisation tv)))) "label" b := by
  constructor
  · intro h
    unfold process at h
    split at h
    · cases h
    · rename_i tv hgt
      split at h
      · cases h
      · rename_i lv hgl
        split at h
        · cases h
        · rename_i b hpi
          cases h
          refine ⟨tv, lv, b, hgt, ?_, hpi, rfl⟩
          rw [getField_setField_ne r _ (by decide)] at hgl
          exact hgl
  · rintro ⟨tv, lv, b, hgt, hgl, hpi, rfl⟩
    unfold process
    split
    · rename_i hg
      rw [hgt] at hg
      cases hg
    · rename_i tv' hg
      rw [hgt] at hg
      cases hg
      split
      · rename_i hg2
        rw [getField_setField_ne r _ (by decide), hgl] at hg2
        cases hg2
      · rename_i lv' hg2
        rw [getField_setField_ne r _ (by decide), hgl] at hg2
        cases hg2
        split
        · rename_i e hp2
          rw [hpi] at hp2
          cases hp2
        · rename_i b' hp2
          rw [hpi] at hp2
          cases hp2
          rfl

theorem process_error_of_bad {r : Row} (h : badRecord r = true) :
    ∃ e, process r = .error e := by
  cases hp : process r with
  | error e => exact ⟨e, rfl⟩
  | ok r' =>
    exfalso
    obtain ⟨tv, lv, b, hgt, hgl, hpi, _⟩ := process_ok_iff.mp hp
    unfold badRecord at h
    rw [hgt, hgl] at h
    simp only [Option.isNone_some, Bool.false_or] at h
    split at h
    · rename_i e hpe
      rw [hpi] at hpe
      cases hpe
    · cases h

theorem pyIndex1_scalar {v b : Val} (h : pyIndex1 v = .ok b) : ∃ sv, b = .scalar sv := by
  unfold pyIndex1 at h
  split at h
  · split at h
    · cases h; exact ⟨_, rfl⟩
    · cases h
  · split at h
    · cases h; exact ⟨_, rfl⟩
    · cases h
  · cases h

theorem apply_preprocessing_ok_shape {d d' : Dataset} (h : apply_preprocessing d = .ok d') :
    ∃ mapped : Dataset,
      List.Forall₂ (fun (p q : String × Split) =>
        q.1 = p.1 ∧ mapE process p.2 = .ok q.2) d mapped ∧
      d' = mapped.map (fun p => (p.1, p.2.map removeCols)) := by
  unfold apply_preprocessing at h
  split at h
  · cases h
  · rename_i mapped hm
    cases h
    refine ⟨mapped, ?_, rfl⟩
    refine List.Forall₂.imp ?_ (mapE_ok_iff.mp hm)
    intro p q hq
    unfold processSplit at hq
    split at hq
    · cases hq
    · rename_i rows hrows
      cases hq
      exact ⟨rfl, hrows⟩

/-- Everything the validator needs about one fully processed row: the
identifier columns are gone, `lonely` and the original `text` survive, and
`text_clean` / `label` hold a string and a hashable scalar. -/
theorem processed_row_fields {r r' : Row} (h : process r = .ok r') :
    getField (removeCols r') "idx" = none ∧
    getField (removeCols r') "unique_id" = none ∧
    (∃ v, getField (removeCols r') "lonely" = some v) ∧
    getField (removeCols r') "text" = getField r "text" ∧
    (∃ tv, getField r "text" = some tv ∧
      getField (removeCols r') "text_clean" =
        some (.scalar (.sstr (basic_text_normalisation tv)))) ∧
    (∃ b, getField (removeCols r') "label" = some b ∧ pyHashable b = true) := by
  obtain ⟨tv, lv, b, hgt, hgl, hpi, rfl⟩ := process_ok_iff.mp h
  have klon : getField (setField (setField r "text_clean"
      (.scalar (.sstr (basic_text_normalisation tv)))) "label" b) "lonely" = some lv := by
    rw [getField_setField_ne _ _ (by decide), getField_setField_ne _ _ (by decide)]
    exact hgl
  have ktxt : getField (setField (setField r "text_clean"
      (.scalar (.sstr (basic_text_normalisation tv)))) "label" b) "text" = getField r "text" := by
    rw [getField_setField_ne _ _ (by decide), getField_setField_ne _ _ (by decide)]
  have kcln : getField (setField (setField r "text_clean"
      (.scalar (.sstr (basic_text_normalisation tv)))) "label" b) "text_clean" =
      some (.scalar (.sstr (basic_text_normalisation tv))) := by
    rw [getField_setField_ne _ _ (by decide)]
    exact getField_setField_self r _ _
  have klab : getField (setField (setField r "text_clean"
      (.scalar (.sstr (basic_text_normalisation tv)))) "label" b) "label" = some b :=
    getField_setField_self _ _ _
  obtain ⟨sv, rfl⟩ := pyIndex1_scalar hpi
  refine ⟨getField_removeCols_removed _ (Or.inl rfl),
    getField_removeCols_removed _ (Or.inr rfl),
    ⟨lv, ?_⟩, ?_, ⟨tv, hgt, ?_⟩, ⟨.scalar sv, ?_, rfl⟩⟩
  · rw [getField_removeCols_kept _ (by decide) (by decide)]
    exact klon
  · rw [getField_removeCols_kept _ (by decide) (by decide)]
    exact ktxt
  · rw [getField_removeCols_kept _ (by decide) (by decide)]
    exact kcln
  · rw [getField_removeCols_kept _ (by decide) (by decide)]
    exact klab

theorem isStrTextRow_iff {r : Row} :
    isStrTextRow r = true ↔ ∃ s, getField r "text" = some (.scalar (.sstr s)) := by
  cases hg : getField r "text" with
  | none => simp [isStrTextRow, hg]
  | some v =>
    cases v with
    | scalar sv =>
      cases sv with
      | sstr s => simp [isStrTextRow, hg]
      | sint n => simp [isStrTextRow, hg]
      | snull => simp [isStrTextRow, hg]
    | vlist l => simp [isStrTextRow, hg]

theorem getLabel_ok_iff {r : Row} {v : Val} :
    getLabel r = .ok v ↔ getField r "label" = some v := by
  cases hg : getField r "label" with
  | none => simp [getLabel, hg]
  | some w => simp [getLabel, hg]

theorem emptyFlag_ok_of_sstr {r : Row} {s : List Char}
    (h : getField r "text_clean" = some (.scalar (.sstr s))) :
    emptyFlag r = .ok (decide (strip s = [])) := by
  simp [emptyFlag, h]

theorem samplePair_ok {r : Row} {s t : List Char}
    (h1 : getField r "text" = some (.scalar (.sstr s)))
    (h2 : getField r "text_clean" = some (.scalar (.sstr t))) :
    samplePair r = .ok (.scalar (.sstr (s.take 200)), .scalar (.sstr (t.take 200))) := by
  simp [samplePair, h1, h2, pySlice]

/-- `validateSplit` completes on a split in which every row exposes a
string `text`, a string `text_clean`, and a hashable `label`. -/
theorem validateSplit_ok {n : Nat} {rows : Split}
    (htext : ∀ r ∈ rows, ∃ s, getField r "text" = some (.scalar (.sstr s)))
    (hclean : ∀ r ∈ rows, ∃ s, getField r "text_clean" = some (.scalar (.sstr s)))
    (hlab : ∀ r ∈ rows, ∃ b, getField r "label" = some b ∧ pyHashable b = true) :
    ∃ rep, validateSplit n rows = .ok rep := by
  obtain ⟨flags, hflags⟩ : ∃ flags, mapE emptyFlag rows = .ok flags :=
    mapE_ok_of_all (fun r hr => by
      obtain ⟨s, hs⟩ := hclean r hr
      exact ⟨_, emptyFlag_ok_of_sstr hs⟩)
  obtain ⟨labels, hlabels⟩ : ∃ labels, mapE getLabel rows = .ok labels :=
    mapE_ok_of_all (fun r hr => by
      obtain ⟨b, hb, _⟩ := hlab r hr
      exact ⟨b, getLabel_ok_iff.mpr hb⟩)
  have hall : labels.all pyHashable = true := by
    rw [List.all_eq_true]
    intro v hv
    obtain ⟨r, hr, hRv⟩ := forall₂_mem_right (mapE_ok_iff.mp hlabels) hv
    obtain ⟨b, hb, hhash⟩ := hlab r hr
    rw [getLabel_ok_iff] at hRv
    rw [hRv] at hb
    cases hb
    exact hhash
  obtain ⟨samples, hsamps⟩ : ∃ samples, mapE samplePair (rows.take n) = .ok samples :=
    mapE_ok_of_all (fun r hr => by
      have hr' : r ∈ rows := List.take_subset n rows hr
      obtain ⟨s, hs⟩ := htext r hr'
      obtain ⟨t, ht⟩ := hclean r hr'
      exact ⟨_, samplePair_ok hs ht⟩)
  unfold validateSplit
  split
  · rename_i e heq
    rw [hflags] at heq
    cases heq
  · rename_i flags' heq
    rw [hflags] at heq
    cases heq
    split
    · rename_i e heq2
      rw [hlabels] at heq2
      cases heq2
    · rename_i labels' heq2
      rw [hlabels] at heq2
      cases heq2
      split
      · split
        · rename_i e heq3
          rw [hsamps] at heq3
          cases heq3
        · exact ⟨_, rfl⟩
      · rename_i hhash
        exact absurd hall hhash

/-! ## Claim theorems -/

/-- C1 (counterexample): normalisation is not idempotent as claimed.  On
the input `"http://x"` the first pass yields the placeholder `"<URL>"`, and
the second pass lowercases it to `"<url>"`, so applying the normaliser
twice differs from applying it once. -/
theorem C1_counterexample :
    basic_text_normalisation
        (.scalar (.sstr (basic_text_normalisation (.scalar (.sstr (toL "http://x")))))) ≠
      basic_text_normalisation (.scalar (.sstr (toL "http://x"))) := by
  decide

/-- C1 (amended): for every input — string or not — whose lowercased,
stripped text contains no match of the URL pattern, applying the
normaliser twice gives the same result as applying it once.  (For inputs
containing a URL match, idempotence fails: the second pass lowercases the
inserted `<URL>` placeholder.) -/
theorem C1_idempotent_without_url (t : Val)
    (H : noMatch (strip (lowerStr (textOf t))) = true) :
    basic_text_normalisation (.scalar (.sstr (basic_text_normalisation t))) =
      basic_text_normalisation t := by
  rw [basic_text_normalisation_eq t]
  have hv : basic_text_normalisation (Val.scalar (SVal.sstr (bnStr (textOf t)))) =
      bnStr (bnStr (textOf t)) := rfl
  rw [hv]
  exact bnStr_idem H

/-- C1 (witness): the amended idempotence at the concrete URL-free input
`"  Hello  World  "`. -/
theorem C1_witness :
    noMatch (strip (lowerStr (textOf (Val.scalar (SVal.sstr (toL "  Hello  World  ")))))) = true ∧
    basic_text_normalisation (.scalar (.sstr (basic_text_normalisation
        (Val.scalar (SVal.sstr (toL "  Hello  World  ")))))) =
      basic_text_normalisation (Val.scalar (SVal.sstr (toL "  Hello  World  "))) :=
  ⟨by decide, C1_idempotent_without_url _ (by decide)⟩

/-- C2 (counterexample): the validator can raise on data content.  A
record whose original `text` was `None` passes preprocessing (the
normaliser absorbs it into an empty `text_clean`), but the validator's
sample-printing step slices `data[i]["text"][:200]`, and slicing `None`
raises a `TypeError`. -/
theorem C2_counterexample :
    apply_preprocessing
        [("train", [[("text", .scalar .snull),
                     ("lonely", .vlist [.sint 1, .sint 0]),
                     ("idx", .scalar (.sint 0)),
                     ("unique_id", .scalar (.sint 1))]])] =
      .ok [("train", [[("text", .scalar .snull),
                       ("lonely", .vlist [.sint 1, .sint 0]),
                       ("text_clean", .scalar (.sstr [])),
                       ("label", .scalar (.sint 0))]])] ∧
    validate_dataset
        [("train", [[("text", .scalar .snull),
                     ("lonely", .vlist [.sint 1, .sint 0]),
                     ("text_clean", .scalar (.sstr [])),
                     ("label", .scalar (.sint 0))]])] 3 =
      .error .typeError := by
  decide

/-- C2 (amended): `validate_dataset` completes without raising, for every
sample count, on any dataset produced by `apply_preprocessing` from inputs
whose `text` fields are all strings; the count and distribution phases
never raise on such data.  (A non-string original `text` among the printed
samples raises a `TypeError` during sample printing, so the unrestricted
claim fails.) -/
theorem C2_validator_ok_on_string_texts {d d' : Dataset} (n : Nat)
    (h : apply_preprocessing d = .ok d')
    (hgood : ∀ p ∈ d, ∀ r ∈ p.2, isStrTextRow r = true) :
    ∃ rep, validate_dataset d' n = .ok rep := by
  obtain ⟨mapped, hf, rfl⟩ := apply_preprocessing_ok_shape h
  unfold validate_dataset
  apply mapE_ok_of_all
  intro p hp
  rw [List.mem_map] at hp
  obtain ⟨q, hq, rfl⟩ := hp
  obtain ⟨pp, hpp, hname, hrows⟩ := forall₂_mem_right hf hq
  have hfacts : ∀ r' ∈ q.2.map removeCols,
      (∃ s, getField r' "text" = some (.scalar (.sstr s))) ∧
      (∃ s, getField r' "text_clean" = some (.scalar (.sstr s))) ∧
      (∃ b, getField r' "label" = some b ∧ pyHashable b = true) := by
    intro r' hr'
    rw [List.mem_map] at hr'
    obtain ⟨r'', hr'', rfl⟩ := hr'
    obtain ⟨r, hr, hpr⟩ := forall₂_mem_right (mapE_ok_iff.mp hrows) hr''
    obtain ⟨_, _, _, htext, ⟨tv, htv, hclean⟩, hlabel⟩ := processed_row_fields hpr
    obtain ⟨s, hs⟩ := isStrTextRow_iff.mp (hgood pp hpp r hr)
    refine ⟨⟨s, ?_⟩, ?_, hlabel⟩
    · rw [htext]; exact hs
    · rw [hs] at htv
      cases htv
      exact ⟨_, hclean⟩
  obtain ⟨rep, hrep⟩ := validateSplit_ok
    (fun r hr => (hfacts r hr).1)
    (fun r hr => (hfacts r hr).2.1)
    (fun r hr => (hfacts r hr).2.2)
  exact ⟨(q.1, rep), by unfold validateEntry; rw [hrep]⟩

/-- C2 (witness): the amended statement at a concrete one-record dataset
with a string `text`. -/
theorem C2_witness :
    apply_preprocessing
        [("train", [[("text", .scalar (.sstr (toL "Hi there"))),
                     ("lonely", .vlist [.sint 0, .sint 1]),
                     ("idx", .scalar (.sint 0)),
                     ("unique_id", .scalar (.sint 2))]])] =
      .ok [("train", [[("text", .scalar (.sstr (toL "Hi there"))),
                       ("lonely", .vlist [.sint 0, .sint 1]),
                       ("text_clean", .scalar (.sstr (toL "hi there"))),
                       ("label", .scalar (.sint 1))]])] ∧
    (∀ p ∈ [(("train" : String),
        [[(("text" : String), Val.scalar (.sstr (toL "Hi there"))),
          ("lonely", Val.vlist [.sint 0, .sint 1]),
          ("idx", Val.scalar (.sint 0)),
          ("unique_id", Val.scalar (.sint 2))]])], ∀ r ∈ p.2, isStrTextRow r = true) ∧
    ∃ rep, validate_dataset
        [("train", [[("text", .scalar (.sstr (toL "Hi there"))),
                     ("lonely", .vlist [.sint 0, .sint 1]),
                     ("text_clean", .scalar (.sstr (toL "hi there"))),
                     ("label", .scalar (.sint 1))]])] 2 = .ok rep :=
  ⟨by decide, by decide,
    @C2_validator_ok_on_string_texts
      [("train", [[("text", .scalar (.sstr (toL "Hi there"))),
                   ("lonely", .vlist [.sint 0, .sint 1]),
                   ("idx", .scalar (.sint 0)),
                   ("unique_id", .scalar (.sint 2))]])]
      [("train", [[("text", .scalar (.sstr (toL "Hi there"))),
                   ("lonely", .vlist [.sint 0, .sint 1]),
                   ("text_clean", .scalar (.sstr (toL "hi there"))),
                   ("label", .scalar (.sint 1))]])]
      2 (by decide) (by decide)⟩

/-- C3: whenever some split contains a record lacking `text`, lacking
`lonely`, or whose `lonely` is not indexable to two elements,
`apply_preprocessing` raises (KeyError / IndexError / TypeError — the
spec's `SchemaError` family) and returns no dataset, partial or
otherwise. -/
theorem C3_schema_error_on_bad_record {d : Dataset}
    (h : ∃ p ∈ d, ∃ r ∈ p.2, badRecord r = true) :
    ∃ e, apply_preprocessing d = .error e := by
  obtain ⟨p, hp, r, hr, hbad⟩ := h
  obtain ⟨e, he⟩ := process_error_of_bad hbad
  obtain ⟨e', he'⟩ := mapE_error_of_mem hr ⟨e, he⟩
  have hps : processSplit p = .error e' := by
    unfold processSplit
    rw [he']
  obtain ⟨e'', he''⟩ := mapE_error_of_mem hp ⟨e', hps⟩
  exact ⟨e'', by unfold apply_preprocessing; rw [he'']⟩

/-- C3 (witness): a dataset whose single record lacks the `lonely` field
makes `apply_preprocessing` raise. -/
theorem C3_witness :
    (∃ p ∈ [(("train" : String), [[(("text" : String), Val.scalar (.sstr (toL "hi")))]])],
      ∃ r ∈ p.2, badRecord r = true) ∧
    ∃ e, apply_preprocessing
        [("train", [[("text", .scalar (.sstr (toL "hi")))]])] = .error e :=
  ⟨by decide, C3_schema_error_on_bad_record (by decide)⟩

/-- C4: `load_fig_loneliness` succeeds exactly when all three fixed
sub-locations (`train_set`, `dev_set`, `test_set`) load, in which case the
result is keyed `train` / `validation` / `test` with the `dev_set` location
mapped to the `validation` key; and it fails with a `LoadError` whenever
any of the three sub-locations fails.  (`load_from_disk` is the external
`datasets` library, modelled from the spec as an abstract storage map.) -/
theorem C4_loader_contract (storage : String → Except LoadError Split) (root : String) :
    (∀ d, load_fig_loneliness storage root = .ok d ↔
      ∃ t v w, storage (pyJoin root "train_set") = .ok t ∧
        storage (pyJoin root "dev_set") = .ok v ∧
        storage (pyJoin root "test_set") = .ok w ∧
        d = [("train", t), ("validation", v), ("test", w)]) ∧
    (((∃ e, storage (pyJoin root "train_set") = .error e) ∨
      (∃ e, storage (pyJoin root "dev_set") = .error e) ∨
      (∃ e, storage (pyJoin root "test_set") = .error e)) →
      ∃ e, load_fig_loneliness storage root = .error e) := by
  constructor
  · intro d
    constructor
    · intro h
      unfold load_fig_loneliness at h
      unfold load_from_disk at h
      split at h
      · cases h
      · rename_i t ht
        split at h
        · cases h
        · rename_i v hv
          split at h
          · cases h
          · rename_i w hw
            cases h
            exact ⟨t, v, w, ht, hv, hw, rfl⟩
    · rintro ⟨t, v, w, ht, hv, hw, rfl⟩
      unfold load_fig_loneliness load_from_disk
      rw [ht, hv, hw]
  · intro h
    unfold load_fig_loneliness load_from_disk
    cases ht : storage (pyJoin root "train_set") with
    | error e => exact ⟨e, rfl⟩
    | ok t =>
      cases hv : storage (pyJoin root "dev_set") with
      | error e => exact ⟨e, rfl⟩
      | ok v =>
        cases hw : storage (pyJoin root "test_set") with
        | error e => exact ⟨e, rfl⟩
        | ok w =>
          exfalso
          rcases h with ⟨e, he⟩ | ⟨e, he⟩ | ⟨e, he⟩
          · rw [ht] at he; cases he
          · rw [hv] at he; cases he
          · rw [hw] at he; cases he

/-- C4 (witness): the failure direction at a concrete storage map whose
`dev_set` location is missing. -/
theorem C4_witness :
    ((∃ e, (fun p => (Except.error (LoadError.loadFailure p) : Except LoadError Split))
        (pyJoin "root" "train_set") = .error e) ∨
      (∃ e, (fun p => (Except.error (LoadError.loadFailure p) : Except LoadError Split))
        (pyJoin "root" "dev_set") = .error e) ∨
      (∃ e, (fun p => (Except.error (LoadError.loadFailure p) : Except LoadError Split))
        (pyJoin "root" "test_set") = .error e)) ∧
    ∃ e, load_fig_loneliness
        (fun p => (Except.error (LoadError.loadFailure p) : Except LoadError Split))
        "root" = .error e :=
  ⟨Or.inr (Or.inl ⟨LoadError.loadFailure (pyJoin "root" "dev_set"), rfl⟩),
    (C4_loader_contract
      (fun p => (Except.error (LoadError.loadFailure p) : Except LoadError Split)) "root").2
      (Or.inr (Or.inl ⟨LoadError.loadFailure (pyJoin "root" "dev_set"), rfl⟩))⟩

/-- C5 (counterexample): URL replacement is not limited to
whitespace-delimited tokens.  In `"http://b xhttp://c"` the whitespace-
delimited URL token `"http://b"` is replaced, but the regex also matches
`http://c` in the middle of the token `"xhttp://c"`, producing
`"<URL> x<URL>"`; under the claim the output would have retained the token
`"xhttp://c"` intact. -/
theorem C5_counterexample :
    basic_text_normalisation (.scalar (.sstr (toL "http://b xhttp://c"))) =
      toL "<URL> x<URL>" ∧
    containsSub (toL "xhttp://c")
      (basic_text_normalisation (.scalar (.sstr (toL "http://b xhttp://c")))) = false := by
  decide

/-- C5 (amended): at the URL-substitution step, every whitespace-delimited
token on which the pattern matches from its first character (`http` or
`www` followed by at least one non-space character) is replaced in its
entirety by the literal `<URL>` placeholder, with the surrounding text
substituted independently; however, matches may also start inside a token,
so the replacement is not limited to whitespace-delimited tokens. -/
theorem C5_token_replacement {t : List Char} (a b : List Char) {sp sp' : Char}
    (hsp : isPySpace sp = true) (hsp' : isPySpace sp' = true)
    (ht : isUrlToken t = true) :
    urlSub (a ++ (sp :: (t ++ (sp' :: b)))) =
      urlSub (a ++ [sp]) ++ (toL "<URL>" ++ (sp' :: urlSub b)) := by
  have hsplit := (urlSubGo_split hsp (t ++ (sp' :: b)) a).1
  unfold urlSub
  rw [hsplit]
  have htok : urlSubGo false (t ++ (sp' :: b)) = toL "<URL>" ++ (sp' :: urlSubGo false b) :=
    urlSub_token_head ht hsp' b
  rw [htok]

/-- C5 (witness): the amended token replacement at the concrete string
`"go http://x end"`. -/
theorem C5_witness :
    isPySpace ' ' = true ∧
    isUrlToken (toL "http://x") = true ∧
    urlSub (toL "go" ++ (' ' :: (toL "http://x" ++ (' ' :: toL "end")))) =
      urlSub (toL "go" ++ [' ']) ++ (toL "<URL>" ++ (' ' :: urlSub (toL "end"))) :=
  ⟨by decide, by decide,
    C5_token_replacement (toL "go") (toL "end") (by decide) (by decide) (by decide)⟩

/-- C6: for every record whose `lonely` field is a pair `[a, b]`, the
processed record's `label` is exactly the second element `b`, copied
verbatim (the same dynamic value, no thresholding, no coercion). -/
theorem C6_label_verbatim {r : Row} {tv : Val} {a b : SVal}
    (ht : getField r "text" = some tv)
    (hl : getField r "lonely" = some (.vlist [a, b])) :
    ∃ r', process r = .ok r' ∧ getField r' "label" = some (.scalar b) := by
  refine ⟨_, process_ok_iff.mpr ⟨tv, .vlist [a, b], .scalar b, ht, hl, rfl, rfl⟩, ?_⟩
  exact getField_setField_self _ _ _

/-- C6 (witness): the verbatim copy at a concrete record whose `lonely`
pair holds non-boolean values. -/
theorem C6_witness :
    getField [("text", Val.scalar (.sstr (toL "hey"))),
              ("lonely", Val.vlist [.sint 3, .sstr (toL "odd")])] "text" =
      some (Val.scalar (.sstr (toL "hey"))) ∧
    getField [("text", Val.scalar (.sstr (toL "hey"))),
              ("lonely", Val.vlist [.sint 3, .sstr (toL "odd")])] "lonely" =
      some (Val.vlist [.sint 3, .sstr (toL "odd")]) ∧
    ∃ r', process [("text", Val.scalar (.sstr (toL "hey"))),
                   ("lonely", Val.vlist [.sint 3, .sstr (toL "odd")])] = .ok r' ∧
      getField r' "label" = some (.scalar (.sstr (toL "odd"))) :=
  ⟨by decide, by decide,
    @C6_label_verbatim
      [("text", Val.scalar (.sstr (toL "hey"))),
       ("lonely", Val.vlist [.sint 3, .sstr (toL "odd")])]
      (Val.scalar (.sstr (toL "hey"))) (.sint 3) (.sstr (toL "odd"))
      (by decide) (by decide)⟩

/-- C7: for every input value, the normaliser's output has no two adjacent
whitespace characters and neither starts nor ends with whitespace. -/
theorem C7_whitespace_normal (v : Val) :
    noDouble (basic_text_normalisation v) = true ∧
    headOk (basic_text_normalisation v) = true ∧
    lastOk (basic_text_normalisation v) = true := by
  rw [basic_text_normalisation_eq]
  exact ⟨bnStr_noDouble _, bnStr_headOk _, bnStr_lastOk _⟩

/-- C8: every split of a successfully processed dataset has the `idx` and
`unique_id` columns removed from every record, while the `lonely` column is
retained. -/
theorem C8_columns_pruned {d d' : Dataset} (h : apply_preprocessing d = .ok d') :
    ∀ p ∈ d', ∀ r' ∈ p.2,
      getField r' "idx" = none ∧ getField r' "unique_id" = none ∧
      ∃ v, getField r' "lonely" = some v := by
  obtain ⟨mapped, hf, rfl⟩ := apply_preprocessing_ok_shape h
  intro p hp r' hr'
  rw [List.mem_map] at hp
  obtain ⟨q, hq, rfl⟩ := hp
  rw [List.mem_map] at hr'
  obtain ⟨r'', hr'', rfl⟩ := hr'
  obtain ⟨pp, hpp, hname, hrows⟩ := forall₂_mem_right hf hq
  obtain ⟨r, hr, hpr⟩ := forall₂_mem_right (mapE_ok_iff.mp hrows) hr''
  obtain ⟨h1, h2, h3, _⟩ := processed_row_fields hpr
  exact ⟨h1, h2, h3⟩

/-- C8 (witness): the pruning at a concrete one-record dataset. -/
theorem C8_witness :
    apply_preprocessing
        [("train", [[("idx", .scalar (.sint 7)),
                     ("text", .scalar (.sstr (toL "yo"))),
                     ("lonely", .vlist [.sint 1, .sint 0]),
                     ("unique_id", .scalar (.sint 9))]])] =
      .ok [("train", [[("text", .scalar (.sstr (toL "yo"))),
                       ("lonely", .vlist [.sint 1, .sint 0]),
                       ("text_clean", .scalar (.sstr (toL "yo"))),
                       ("label", .scalar (.sint 0))]])] ∧
    (∀ p ∈ [(("train" : String),
        [[(("text" : String), Val.scalar (.sstr (toL "yo"))),
          ("lonely", Val.vlist [.sint 1, .sint 0]),
          ("text_clean", Val.scalar (.sstr (toL "yo"))),
          ("label", Val.scalar (.sint 0))]])], ∀ r' ∈ p.2,
      getField r' "idx" = none ∧ getField r' "unique_id" = none ∧
      ∃ v, getField r' "lonely" = some v) :=
  ⟨by decide,
    @C8_columns_pruned
      [("train", [[("idx", .scalar (.sint 7)),
                   ("text", .scalar (.sstr (toL "yo"))),
                   ("lonely", .vlist [.sint 1, .sint 0]),
                   ("unique_id", .scalar (.sint 9))]])]
      [("train", [[("text", .scalar (.sstr (toL "yo"))),
                   ("lonely", .vlist [.sint 1, .sint 0]),
                   ("text_clean", .scalar (.sstr (toL "yo"))),
                   ("label", .scalar (.sint 0))]])]
      (by decide)⟩

/-- C9: `apply_preprocessing`'s record transform succeeds on any record
whose `lonely` sequence is strictly longer than two: it reads only the
element at index 1 as the label and silently ignores the rest, with no
length-two check and no binary-value check. -/
theorem C9_long_lonely_ok {r : Row} {tv : Val} {l : List SVal}
    (ht : getField r "text" = some tv)
    (hl : getField r "lonely" = some (.vlist l))
    (hlen : 2 < l.length) :
    ∃ b r', l.get? 1 = some b ∧ process r = .ok r' ∧
      getField r' "label" = some (.scalar b) := by
  have h1 : 1 < l.length := by omega
  obtain ⟨b, hb⟩ : ∃ b, l.get? 1 = some b := by
    cases hg : l.get? 1 with
    | none =>
      rw [List.get?_eq_none] at hg
      omega
    | some b => exact ⟨b, rfl⟩
  have hb' : l[1]? = some b := by
    rw [← List.get?_eq_getElem?]
    exact hb
  have hpi : pyIndex1 (.vlist l) = .ok (.scalar b) := by
    simp [pyIndex1, hb']
  refine ⟨b, _, hb,
    process_ok_iff.mpr ⟨tv, .vlist l, .scalar b, ht, hl, hpi, rfl⟩, ?_⟩
  exact getField_setField_self _ _ _

/-- C9 (witness): a record whose `lonely` has three entries, none of them
a boolean pair, is processed fine and labelled with the second entry. -/
theorem C9_witness :
    getField [("text", Val.scalar (.sstr (toL "hi"))),
              ("lonely", Val.vlist [.sint 9, .sstr (toL "weird"), .snull])] "text" =
      some (Val.scalar (.sstr (toL "hi"))) ∧
    getField [("text", Val.scalar (.sstr (toL "hi"))),
              ("lonely", Val.vlist [.sint 9, .sstr (toL "weird"), .snull])] "lonely" =
      some (Val.vlist [.sint 9, .sstr (toL "weird"), .snull]) ∧
    2 < [SVal.sint 9, SVal.sstr (toL "weird"), SVal.snull].length ∧
    ∃ b r', [SVal.sint 9, SVal.sstr (toL "weird"), SVal.snull].get? 1 = some b ∧
      process [("text", Val.scalar (.sstr (toL "hi"))),
               ("lonely", Val.vlist [.sint 9, .sstr (toL "weird"), .snull])] = .ok r' ∧
      getField r' "label" = some (.scalar b) :=
  ⟨by decide, by decide, by decide,
    @C9_long_lonely_ok
      [("text", Val.scalar (.sstr (toL "hi"))),
       ("lonely", Val.vlist [.sint 9, .sstr (toL "weird"), .snull])]
      (Val.scalar (.sstr (toL "hi")))
      [.sint 9, .sstr (toL "weird"), .snull]
      (by decide) (by decide) (by decide)⟩

/-- C10: there is an input (any text containing a URL token) whose
normalised output contains uppercase characters — the `<URL>` placeholder
is inserted after the lowercasing step — so the output differs from its
own lowercasing even though lowercasing is the first normalisation step. -/
theorem C10_placeholder_uppercase :
    basic_text_normalisation (.scalar (.sstr (toL "see http://x now"))) = toL "see <URL> now" ∧
    lowerStr (basic_text_normalisation (.scalar (.sstr (toL "see http://x now")))) ≠
      basic_text_normalisation (.scalar (.sstr (toL "see http://x now"))) := by
  decide

